import Mathlib

/-!
Verification of the DSS-MEREC pipeline.

The TypeScript sources (calculation modules mer01 to mer06 and the two
entry points in merec.ts) are shallowly embedded over the real numbers:
JavaScript numbers become elements of the real field, matrices become
lists of lists of reals, and a thrown exception becomes an error value of
an explicit error type.  In exact real arithmetic the isFinite guards of
the source are identically true, so the corresponding recovery branches
of the source (substituting a default for a NaN or an infinity) are dead
code in the embedding; each definition notes where such a branch was
elided.  All other branches of the source are reproduced literally.
-/

open Classical

noncomputable section

/-- Criterion type tag, from types.ts: the union type "benefit" | "cost". -/
inductive CriteriaType
  | benefit
  | cost
deriving DecidableEq

/-- Error kinds of the pipeline.  The source throws Error objects with
message strings; the embedding records which check failed instead of the
message text. -/
inductive MerecError
  | emptyMatrix
  | emptyCriteria
  | columnMismatch
  | raggedRow
  | invalidDecisionMatrix
  | normalizationError
  | invalidRemoval
  | shapeMismatch
  | negativeDeviation
  | invalidWeight
deriving DecidableEq

/-- Cell access matrix[i][j], with 0 as the out-of-bounds default.  All
uses in the embedding are in bounds. -/
def matrixEntry (matrix : List (List ℝ)) (i j : ℕ) : ℝ :=
  (matrix.getD i []).getD j 0

/-- Column extraction, from mer02: matrix.map(row => row[j]). -/
def columnValues (matrix : List (List ℝ)) (j : ℕ) : List ℝ :=
  matrix.map (fun row => row.getD j 0)

/-- Embedding of Math.min over the spread of a nonempty list; the empty
case (which the source never reaches) is given the junk value 0. -/
def listMin : List ℝ → ℝ
  | [] => 0
  | x :: xs => xs.foldl min x

/-- Embedding of Math.max over the spread of a nonempty list; the empty
case (which the source never reaches) is given the junk value 0. -/
def listMax : List ℝ → ℝ
  | [] => 0
  | x :: xs => xs.foldl max x

/-- The literal 1e-10 used as the default epsilon and as the weight-sum
tolerance throughout the source. -/
def epsilonDefault : ℝ := 1 / 10 ^ 10

/-- MER-01 cell repair: if (value <= 0) value = Math.abs(value) + 1. -/
def repairValue (v : ℝ) : ℝ :=
  if v ≤ 0 then |v| + 1 else v

/-- MER-01 matrix body: each row of raw values with every cell repaired. -/
def repairMatrix (values : List (List ℝ)) : List (List ℝ) :=
  values.map (fun row => row.map repairValue)

/-- MER-01, calculateDecisionMatrix from mer01-matriksKeputusan.ts.  The
alternatives argument is modelled by the list of their value rows and the
criteria argument by its length n; the id and name metadata take no part
in the computation. -/
def calculateDecisionMatrix (values : List (List ℝ)) (n : ℕ) :
    Except MerecError (List (List ℝ)) :=
  if values.length = 0 then Except.error MerecError.emptyMatrix
  else if n = 0 then Except.error MerecError.emptyCriteria
  else if ∃ row ∈ values, row.length ≠ n then Except.error MerecError.raggedRow
  else Except.ok (repairMatrix values)

/-- MER-02, calculateNormalizedMatrix from mer02-normalisasi.ts.  The
function reads n from matrix[0].length and, for each cell, branches on
the criterion type: benefit columns use columnMin / max(x, epsilon) with
the whole column degraded to epsilon when columnMin <= 0, cost columns
use max(x, epsilon) / columnMax with the whole column degraded to epsilon
when columnMax == 0.  The guard of the source that throws when n differs
from criteria.length is established by every caller (the entry point
checks it first), so the embedding is the total computation. -/
def calculateNormalizedMatrix (matrix : List (List ℝ))
    (criteria : List CriteriaType) (epsilon : ℝ) : List (List ℝ) :=
  let n := matrix.headI.length
  matrix.map (fun row =>
    (List.range n).map (fun j =>
      let currentValue := row.getD j 0
      let col := columnValues matrix j
      if criteria.getD j CriteriaType.benefit = CriteriaType.benefit then
        if listMin col ≤ 0 then epsilon
        else listMin col / max currentValue epsilon
      else
        if listMax col = 0 then epsilon
        else max currentValue epsilon / listMax col))

/-- One |ln| term of MER-03 and MER-04: Math.abs(Math.log(Math.max(x, epsilon))).
The source substitutes |ln(epsilon)| for a non-finite term; in exact real
arithmetic the term is always finite, so that branch is dead. -/
def absLnTerm (epsilon x : ℝ) : ℝ :=
  |Real.log (max x epsilon)|

/-- MER-03, calculateOverallPerformance from mer03-kinerjaKeseluruhan.ts:
S_i = ln(1 + (sum of the |ln| terms of row i) / n) where n is the
criterion count matrix[0].length.  The emptiness throw is established
impossible by the entry point; the non-finite fallback to 0 is dead in
exact real arithmetic. -/
def calculateOverallPerformance (normalizedMatrix : List (List ℝ))
    (epsilon : ℝ) : List ℝ :=
  let n := normalizedMatrix.headI.length
  normalizedMatrix.map (fun row =>
    Real.log (1 + ((List.range n).map
      (fun j => absLnTerm epsilon (row.getD j 0))).sum / (n : ℝ)))

/-- One cell of MER-04: the log-performance of a row with criterion j
removed, averaged over the count of included criteria; when that count is
0 (single-criterion case n = 1) the source pushes the default 0. -/
def removalCell (row : List ℝ) (n j : ℕ) (epsilon : ℝ) : ℝ :=
  let ks := (List.range n).filter (fun k => k != j)
  if ks.length = 0 then 0
  else Real.log (1 + (ks.map
    (fun k => absLnTerm epsilon (row.getD k 0))).sum / (ks.length : ℝ))

/-- MER-04, calculateRemovalPerformance from unnamed/part_000 of the
sources: for each alternative i and each criterion j, the performance of
row i recomputed over the criteria k with k distinct from j. -/
def calculateRemovalPerformance (normalizedMatrix : List (List ℝ))
    (epsilon : ℝ) : List (List ℝ) :=
  let n := normalizedMatrix.headI.length
  normalizedMatrix.map (fun row =>
    (List.range n).map (fun j => removalCell row n j epsilon))

/-- MER-05, calculateAbsoluteDeviations from mer05-deviasiAbsolut.ts:
E_j = sum over i of |S_removal[i][j] - S[i]|.  The shape throws are
established impossible by the pipeline; the safe substitution of 0 for a
non-finite S value is dead in exact real arithmetic. -/
def calculateAbsoluteDeviations (performances : List ℝ)
    (removalPerformances : List (List ℝ)) : List ℝ :=
  let m := performances.length
  let n := removalPerformances.headI.length
  (List.range n).map (fun j =>
    ((List.range m).map (fun i =>
      |matrixEntry removalPerformances i j - performances.getD i 0|)).sum)

/-- MER-06, calculateFinalWeights from mer06-bobotAkhir.ts.  If the total
deviation is 0 the uniform vector is returned (the non-finite total case
is dead in exact real arithmetic); otherwise w_j = |E_j| / total, and if
the resulting sum differs from 1 by more than 1e-10 the vector is
renormalized by the observed sum, or replaced by the uniform vector when
that sum is not positive.  The per-entry non-finite fallback to 0 and the
emptiness throw are dead on the pipeline path. -/
def calculateFinalWeights (deviations : List ℝ) : List ℝ :=
  let n := deviations.length
  let total := deviations.sum
  if total = 0 then List.replicate n (1 / (n : ℝ))
  else
    let weights := deviations.map (fun e => |e| / total)
    if 1 / 10 ^ 10 < |weights.sum - 1| then
      if 0 < weights.sum then weights.map (fun w => w / weights.sum)
      else List.replicate n (1 / (n : ℝ))
    else weights

/-- The shape precondition of the entry points: nonempty matrix, nonempty
criteria list, criteria count equal to the column count of row 0, and
every row of that same length. -/
def ShapeValid (matrix : List (List ℝ)) (criteriaTypes : List CriteriaType) : Prop :=
  matrix ≠ [] ∧ criteriaTypes ≠ [] ∧
    criteriaTypes.length = matrix.headI.length ∧
    ∀ row ∈ matrix, row.length = matrix.headI.length

/-- The shared body of the two entry points of merec.ts: the shape
checks, then the six stages each followed by its validator.  The source
hardwires 1e-10 at every stage call; here that occurrence is the epsilon
parameter, and the entry points instantiate it at epsilonDefault.  The
stage validators are embedded as the conditions they throw on; validator
conditions on finiteness are identically true over the reals and are
elided.  Checks that textually duplicate an earlier check of the same run
(re-validations of emptiness and of row lengths already established) are
elided as observationally void. -/
def merecPipeline (matrix : List (List ℝ)) (criteriaTypes : List CriteriaType)
    (epsilon : ℝ) : Except MerecError (List ℝ) :=
  if matrix.length = 0 then Except.error MerecError.emptyMatrix
  else if criteriaTypes.length = 0 then Except.error MerecError.emptyCriteria
  else
    let n := matrix.headI.length
    if criteriaTypes.length ≠ n then Except.error MerecError.columnMismatch
    else if ∃ row ∈ matrix, row.length ≠ n then Except.error MerecError.raggedRow
    else
      let X := repairMatrix matrix
      if ¬ (∀ row ∈ X, ∀ x ∈ row, 0 < x) then
        Except.error MerecError.invalidDecisionMatrix
      else
        let N := calculateNormalizedMatrix X criteriaTypes epsilon
        if ¬ (∀ row ∈ N, ∀ x ∈ row, 0 < x) then
          Except.error MerecError.normalizationError
        else
          let S := calculateOverallPerformance N epsilon
          let Sp := calculateRemovalPerformance N epsilon
          if ¬ (∀ row ∈ Sp, row.length = Sp.headI.length) then
            Except.error MerecError.invalidRemoval
          else if Sp.length ≠ S.length then
            Except.error MerecError.shapeMismatch
          else
            let E := calculateAbsoluteDeviations S Sp
            if ¬ (∀ e ∈ E, 0 ≤ e) then
              Except.error MerecError.negativeDeviation
            else
              let W := calculateFinalWeights E
              if W = [] ∨
                  ¬ ((∀ w ∈ W, 0 ≤ w ∧ w ≤ 1) ∧ |W.sum - 1| ≤ 1 / 10 ^ 10) then
                Except.error MerecError.invalidWeight
              else Except.ok W

/-- The free-function entry point calculateMerecWeights of merec.ts.  Its
body is merecPipeline with the hardwired epsilon 1e-10. -/
def calculateMerecWeights (matrix : List (List ℝ))
    (criteriaTypes : List CriteriaType) : Except MerecError (List ℝ) :=
  merecPipeline matrix criteriaTypes epsilonDefault

/-- The static method Merec.CalculateWeight of merec.ts.  Its source body
is a verbatim duplicate of calculateMerecWeights, down to the hardwired
epsilon 1e-10 at every stage call. -/
def Merec.CalculateWeight (matrix : List (List ℝ))
    (criteriaTypes : List CriteriaType) : Except MerecError (List ℝ) :=
  merecPipeline matrix criteriaTypes epsilonDefault

/-- A JavaScript call site passing a third argument to the two-parameter
function calculateMerecWeights: JavaScript drops extra arguments, so the
call is calculateMerecWeights matrix criteriaTypes and the third argument
is ignored. -/
def calculateMerecWeightsExtraArg (matrix : List (List ℝ))
    (criteriaTypes : List CriteriaType) (_epsilon : ℝ) :
    Except MerecError (List ℝ) :=
  calculateMerecWeights matrix criteriaTypes

/-- Multiply every cell of column j of a matrix by the constant c,
leaving the other columns unchanged. -/
def scaleColumn (matrix : List (List ℝ)) (c : ℝ) (j : ℕ) : List (List ℝ) :=
  matrix.map (fun row => row.set j (c * row.getD j 0))

end

/-! ### List helper lemmas -/

lemma getD_eq_getElem {α : Type} (l : List α) (d : α) {i : ℕ} (h : i < l.length) :
    l.getD i d = l[i] := by
  rw [List.getD_eq_getElem?_getD, List.getElem?_eq_getElem h, Option.getD_some]

lemma getD_mem {α : Type} (l : List α) (d : α) {j : ℕ} (h : j < l.length) :
    l.getD j d ∈ l := by
  rw [getD_eq_getElem l d h]
  exact l.getElem_mem h

lemma getD_map_lt {α β : Type} (f : α → β) (l : List α) {i : ℕ} (h : i < l.length)
    (d : α) (d2 : β) : (l.map f).getD i d2 = f (l.getD i d) := by
  rw [getD_eq_getElem _ _ (by simpa using h), getD_eq_getElem _ _ h, List.getElem_map]

lemma getD_range_map {β : Type} (f : ℕ → β) {n j : ℕ} (hj : j < n) (d : β) :
    ((List.range n).map f).getD j d = f j := by
  rw [getD_map_lt f _ (by simpa using hj) 0 d, getD_eq_getElem _ _ (by simpa using hj),
    List.getElem_range]

lemma getD_set_self {α : Type} (l : List α) {j : ℕ} (h : j < l.length) (a d : α) :
    (l.set j a).getD j d = a := by
  rw [getD_eq_getElem _ _ (by simpa using h)]
  exact List.getElem_set_self _

lemma headI_mem {α : Type} [Inhabited α] {l : List α} (h : l ≠ []) : l.headI ∈ l := by
  cases l with
  | nil => exact absurd rfl h
  | cons x xs => exact List.mem_cons_self x xs

lemma range_map_getD {β : Type} (l : List ℝ) (f : ℝ → β) (d : ℝ) :
    (List.range l.length).map (fun j => f (l.getD j d)) = l.map f := by
  induction l with
  | nil => simp
  | cons x xs ih =>
    rw [List.length_cons, List.range_succ_eq_map]
    simp only [List.map_cons, List.map_map, List.getD_cons_zero, List.map]
    refine congrArg (f x :: ·) ?_
    rw [← ih]
    exact List.map_congr_left (fun j _ => by simp [Function.comp])

lemma sum_map_div (l : List ℝ) (c : ℝ) : (l.map (fun x => x / c)).sum = l.sum / c := by
  induction l with
  | nil => simp
  | cons x xs ih => simp [ih, add_div]

/-! ### listMin and listMax -/

lemma foldl_min_le_init (xs : List ℝ) (a : ℝ) : xs.foldl min a ≤ a := by
  induction xs generalizing a with
  | nil => exact le_refl a
  | cons y ys ih => exact le_trans (ih (min a y)) (min_le_left a y)

lemma foldl_min_le_mem (xs : List ℝ) (a : ℝ) {x : ℝ} (hx : x ∈ xs) :
    xs.foldl min a ≤ x := by
  induction xs generalizing a with
  | nil => cases hx
  | cons y ys ih =>
    rcases List.mem_cons.mp hx with rfl | hmem
    · exact le_trans (foldl_min_le_init ys (min a x)) (min_le_right a x)
    · exact ih (min a y) hmem

lemma foldl_min_mem_or (xs : List ℝ) (a : ℝ) :
    xs.foldl min a = a ∨ xs.foldl min a ∈ xs := by
  induction xs generalizing a with
  | nil => exact Or.inl rfl
  | cons y ys ih =>
    rcases ih (min a y) with heq | hmem
    · rcases min_choice a y with h | h
      · exact Or.inl (by rw [List.foldl_cons, heq, h])
      · exact Or.inr (by rw [List.foldl_cons, heq, h]; exact List.mem_cons_self y ys)
    · exact Or.inr (List.mem_cons_of_mem y hmem)

lemma listMin_le {l : List ℝ} {x : ℝ} (hx : x ∈ l) : listMin l ≤ x := by
  cases l with
  | nil => cases hx
  | cons y ys =>
    rcases List.mem_cons.mp hx with rfl | hmem
    · exact foldl_min_le_init ys x
    · exact foldl_min_le_mem ys y hmem

lemma listMin_mem {l : List ℝ} (h : l ≠ []) : listMin l ∈ l := by
  cases l with
  | nil => exact absurd rfl h
  | cons y ys =>
    rcases foldl_min_mem_or ys y with heq | hmem
    · rw [listMin, heq]; exact List.mem_cons_self y ys
    · exact List.mem_cons_of_mem y hmem

lemma le_foldl_max (xs : List ℝ) (a : ℝ) : a ≤ xs.foldl max a := by
  induction xs generalizing a with
  | nil => exact le_refl a
  | cons y ys ih => exact le_trans (le_max_left a y) (ih (max a y))

lemma mem_le_foldl_max (xs : List ℝ) (a : ℝ) {x : ℝ} (hx : x ∈ xs) :
    x ≤ xs.foldl max a := by
  induction xs generalizing a with
  | nil => cases hx
  | cons y ys ih =>
    rcases List.mem_cons.mp hx with rfl | hmem
    · exact le_trans (le_max_right a x) (le_foldl_max ys (max a x))
    · exact ih (max a y) hmem

lemma le_listMax {l : List ℝ} {x : ℝ} (hx : x ∈ l) : x ≤ listMax l := by
  cases l with
  | nil => cases hx
  | cons y ys =>
    rcases List.mem_cons.mp hx with rfl | hmem
    · exact le_foldl_max ys x
    · exact mem_le_foldl_max ys y hmem

lemma mul_min_eq (c a b : ℝ) (hc : 0 ≤ c) : c * min a b = min (c * a) (c * b) := by
  rcases le_total a b with h | h
  · rw [min_eq_left h, min_eq_left (mul_le_mul_of_nonneg_left h hc)]
  · rw [min_eq_right h, min_eq_right (mul_le_mul_of_nonneg_left h hc)]

lemma foldl_min_map_mul (c : ℝ) (hc : 0 ≤ c) (xs : List ℝ) (a : ℝ) :
    (xs.map (fun x => c * x)).foldl min (c * a) = c * xs.foldl min a := by
  induction xs generalizing a with
  | nil => rfl
  | cons y ys ih =>
    rw [List.map_cons, List.foldl_cons, List.foldl_cons, ← mul_min_eq c a y hc]
    exact ih (min a y)

lemma listMin_map_mul (c : ℝ) (hc : 0 ≤ c) (l : List ℝ) :
    listMin (l.map (fun x => c * x)) = c * listMin l := by
  cases l with
  | nil => simp [listMin]
  | cons x xs => exact foldl_min_map_mul c hc xs x

/-! ### Facts about the individual stages -/

lemma epsilonDefault_pos : 0 < epsilonDefault := by
  unfold epsilonDefault
  norm_num

lemma repairValue_pos (v : ℝ) : 0 < repairValue v := by
  unfold repairValue
  by_cases h : v ≤ 0
  · rw [if_pos h]
    have := abs_nonneg v
    linarith
  · rw [if_neg h]
    exact lt_of_not_le h

lemma repairMatrix_length (M : List (List ℝ)) :
    (repairMatrix M).length = M.length := by
  simp [repairMatrix]

lemma repairMatrix_ne_nil {M : List (List ℝ)} (h : M ≠ []) :
    repairMatrix M ≠ [] := by
  intro h0
  exact h (List.map_eq_nil_iff.mp h0)

lemma repairMatrix_pos (M : List (List ℝ)) :
    ∀ row ∈ repairMatrix M, ∀ x ∈ row, 0 < x := by
  intro row hrow x hx
  rcases List.mem_map.mp hrow with ⟨r, _, rfl⟩
  rcases List.mem_map.mp hx with ⟨v, _, rfl⟩
  exact repairValue_pos v

lemma repairMatrix_rows (M : List (List ℝ)) (n : ℕ)
    (h : ∀ row ∈ M, row.length = n) :
    ∀ row ∈ repairMatrix M, row.length = n := by
  intro row hrow
  rcases List.mem_map.mp hrow with ⟨r, hr, rfl⟩
  simpa using h r hr

lemma repairMatrix_headI_length (M : List (List ℝ)) :
    (repairMatrix M).headI.length = M.headI.length := by
  cases M <;> simp [repairMatrix]

lemma calculateNormalizedMatrix_length (X : List (List ℝ)) (T : List CriteriaType)
    (ε : ℝ) : (calculateNormalizedMatrix X T ε).length = X.length := by
  simp [calculateNormalizedMatrix]

lemma calculateNormalizedMatrix_rows (X : List (List ℝ)) (T : List CriteriaType)
    (ε : ℝ) : ∀ row ∈ calculateNormalizedMatrix X T ε,
      row.length = X.headI.length := by
  intro row hrow
  rcases List.mem_map.mp hrow with ⟨r, _, rfl⟩
  simp

lemma calculateNormalizedMatrix_headI_length (X : List (List ℝ))
    (T : List CriteriaType) (ε : ℝ) :
    (calculateNormalizedMatrix X T ε).headI.length = X.headI.length := by
  cases X <;> simp [calculateNormalizedMatrix]

lemma calculateNormalizedMatrix_pos (X : List (List ℝ)) (T : List CriteriaType)
    (ε : ℝ) (hε : 0 < ε)
    (hX : ∀ row ∈ X, ∀ x ∈ row, 0 < x)
    (hrect : ∀ row ∈ X, row.length = X.headI.length) :
    ∀ row ∈ calculateNormalizedMatrix X T ε, ∀ x ∈ row, 0 < x := by
  intro row hrow x hx
  rcases List.mem_map.mp hrow with ⟨r, hr, rfl⟩
  rcases List.mem_map.mp hx with ⟨j, hj, rfl⟩
  have hjn : j < X.headI.length := List.mem_range.mp hj
  have hjr : j < r.length := by rw [hrect r hr]; exact hjn
  have hcell : 0 < r.getD j 0 := hX r hr _ (getD_mem r 0 hjr)
  have hcol : r.getD j 0 ∈ columnValues X j := List.mem_map.mpr ⟨r, hr, rfl⟩
  dsimp only
  by_cases hb : T.getD j CriteriaType.benefit = CriteriaType.benefit
  · rw [if_pos hb]
    by_cases hmin : listMin (columnValues X j) ≤ 0
    · rw [if_pos hmin]
      exact hε
    · rw [if_neg hmin]
      exact div_pos (lt_of_not_le hmin) (lt_of_lt_of_le hε (le_max_right _ _))
  · rw [if_neg hb]
    by_cases hmax : listMax (columnValues X j) = 0
    · rw [if_pos hmax]
      exact hε
    · rw [if_neg hmax]
      exact div_pos (lt_of_lt_of_le hε (le_max_right _ _))
        (lt_of_lt_of_le hcell (le_listMax hcol))

lemma calculateOverallPerformance_length (N : List (List ℝ)) (ε : ℝ) :
    (calculateOverallPerformance N ε).length = N.length := by
  simp [calculateOverallPerformance]

lemma calculateRemovalPerformance_length (N : List (List ℝ)) (ε : ℝ) :
    (calculateRemovalPerformance N ε).length = N.length := by
  simp [calculateRemovalPerformance]

lemma calculateRemovalPerformance_rows (N : List (List ℝ)) (ε : ℝ) :
    ∀ row ∈ calculateRemovalPerformance N ε, row.length = N.headI.length := by
  intro row hrow
  rcases List.mem_map.mp hrow with ⟨r, _, rfl⟩
  simp

lemma calculateRemovalPerformance_headI_length (N : List (List ℝ)) (ε : ℝ) :
    (calculateRemovalPerformance N ε).headI.length = N.headI.length := by
  cases N <;> simp [calculateRemovalPerformance]

lemma calculateAbsoluteDeviations_length (S : List ℝ) (Sp : List (List ℝ)) :
    (calculateAbsoluteDeviations S Sp).length = Sp.headI.length := by
  simp [calculateAbsoluteDeviations]

lemma calculateAbsoluteDeviations_nonneg (S : List ℝ) (Sp : List (List ℝ)) :
    ∀ e ∈ calculateAbsoluteDeviations S Sp, 0 ≤ e := by
  intro e he
  rcases List.mem_map.mp he with ⟨j, _, rfl⟩
  refine List.sum_nonneg ?_
  intro x hx
  rcases List.mem_map.mp hx with ⟨i, _, rfl⟩
  exact abs_nonneg _

/-! ### Facts about the weight finalizer -/

lemma calculateFinalWeights_sum_zero (E : List ℝ) (h : E.sum = 0) :
    calculateFinalWeights E = List.replicate E.length (1 / (E.length : ℝ)) := by
  simp only [calculateFinalWeights]
  rw [if_pos h]

lemma map_abs_div_sum (E : List ℝ) (h0 : ∀ e ∈ E, 0 ≤ e) :
    E.map (fun e => |e| / E.sum) = E.map (fun e => e / E.sum) :=
  List.map_congr_left (fun e he => by rw [abs_of_nonneg (h0 e he)])

lemma sum_map_abs_div (E : List ℝ) (h0 : ∀ e ∈ E, 0 ≤ e) (hs : E.sum ≠ 0) :
    (E.map (fun e => |e| / E.sum)).sum = 1 := by
  rw [map_abs_div_sum E h0, sum_map_div, div_self hs]

lemma calculateFinalWeights_of_nonneg (E : List ℝ) (h0 : ∀ e ∈ E, 0 ≤ e)
    (hs : E.sum ≠ 0) :
    calculateFinalWeights E = E.map (fun e => |e| / E.sum) := by
  simp only [calculateFinalWeights]
  rw [if_neg hs, sum_map_abs_div E h0 hs, if_neg (by norm_num)]

lemma calculateFinalWeights_props (E : List ℝ) (hne : E ≠ [])
    (h0 : ∀ e ∈ E, 0 ≤ e) :
    (calculateFinalWeights E).length = E.length ∧
      (∀ w ∈ calculateFinalWeights E, 0 ≤ w ∧ w ≤ 1) ∧
      (calculateFinalWeights E).sum = 1 := by
  have hn0 : E.length ≠ 0 := fun h => hne (List.length_eq_zero.mp h)
  have hncast : (0 : ℝ) < (E.length : ℝ) := by
    exact_mod_cast Nat.pos_of_ne_zero hn0
  by_cases hs : E.sum = 0
  · rw [calculateFinalWeights_sum_zero E hs]
    refine ⟨by simp, ?_, ?_⟩
    · intro w hw
      obtain ⟨-, rfl⟩ := List.mem_replicate.mp hw
      refine ⟨div_nonneg zero_le_one hncast.le, ?_⟩
      rw [div_le_one hncast]
      exact_mod_cast Nat.one_le_iff_ne_zero.mpr hn0
    · rw [List.sum_replicate, nsmul_eq_mul, mul_one_div, div_self (ne_of_gt hncast)]
  · rw [calculateFinalWeights_of_nonneg E h0 hs]
    have hspos : 0 < E.sum := lt_of_le_of_ne (List.sum_nonneg h0) (Ne.symm hs)
    refine ⟨by simp, ?_, sum_map_abs_div E h0 hs⟩
    intro w hw
    rcases List.mem_map.mp hw with ⟨e, he, rfl⟩
    rw [abs_of_nonneg (h0 e he)]
    exact ⟨div_nonneg (h0 e he) hspos.le,
      by rw [div_le_one hspos]; exact List.single_le_sum h0 e he⟩

/-! ### The pipeline succeeds on every shape-valid input -/

lemma merecPipeline_ok (M : List (List ℝ)) (T : List CriteriaType) (ε : ℝ)
    (hε : 0 < ε) (h : ShapeValid M T) :
    ∃ W, merecPipeline M T ε = Except.ok W ∧ W.length = T.length ∧
      (∀ w ∈ W, 0 ≤ w ∧ w ≤ 1) ∧ W.sum = 1 := by
  obtain ⟨hM, hT, hlen, hrect⟩ := h
  have hMne : ¬ M.length = 0 := fun h0 => hM (List.length_eq_zero.mp h0)
  have hTne : ¬ T.length = 0 := fun h0 => hT (List.length_eq_zero.mp h0)
  have hn0 : M.headI.length ≠ 0 := by
    rw [← hlen]
    exact hTne
  simp only [merecPipeline]
  rw [if_neg hMne, if_neg hTne, if_neg (not_not_intro hlen),
    if_neg (fun hbad => by
      obtain ⟨r, hr, hne2⟩ := hbad
      exact hne2 (hrect r hr))]
  set X := repairMatrix M with hXdef
  have hXpos := repairMatrix_pos M
  have hXrows : ∀ row ∈ X, row.length = M.headI.length := repairMatrix_rows M _ hrect
  have hXhead : X.headI.length = M.headI.length := repairMatrix_headI_length M
  have hXlen : X.length = M.length := repairMatrix_length M
  rw [if_neg (not_not_intro hXpos)]
  set N := calculateNormalizedMatrix X T ε with hNdef
  have hNpos : ∀ row ∈ N, ∀ x ∈ row, 0 < x :=
    calculateNormalizedMatrix_pos X T ε hε hXpos
      (fun row hrow => by rw [hXrows row hrow, hXhead])
  have hNlen : N.length = M.length := by
    rw [hNdef, calculateNormalizedMatrix_length, hXlen]
  have hNhead : N.headI.length = M.headI.length := by
    rw [hNdef, calculateNormalizedMatrix_headI_length, hXhead]
  rw [if_neg (not_not_intro hNpos)]
  set S := calculateOverallPerformance N ε with hSdef
  set Sp := calculateRemovalPerformance N ε with hSpdef
  have hSlen : S.length = M.length := by
    rw [hSdef, calculateOverallPerformance_length, hNlen]
  have hSplen : Sp.length = M.length := by
    rw [hSpdef, calculateRemovalPerformance_length, hNlen]
  have hSphead : Sp.headI.length = M.headI.length := by
    rw [hSpdef, calculateRemovalPerformance_headI_length, hNhead]
  have hSprows : ∀ row ∈ Sp, row.length = Sp.headI.length := by
    intro row hrow
    rw [hSphead, ← hNhead]
    exact calculateRemovalPerformance_rows N ε row hrow
  rw [if_neg (not_not_intro hSprows),
    if_neg (not_not_intro (by rw [hSplen, hSlen]))]
  set E := calculateAbsoluteDeviations S Sp with hEdef
  have hEnn : ∀ e ∈ E, 0 ≤ e := calculateAbsoluteDeviations_nonneg S Sp
  have hElen : E.length = M.headI.length := by
    rw [hEdef, calculateAbsoluteDeviations_length, hSphead]
  have hEne : E ≠ [] := by
    intro h0
    rw [h0] at hElen
    exact hn0 hElen.symm
  rw [if_neg (not_not_intro hEnn)]
  obtain ⟨hWlen, hWmem, hWsum⟩ := calculateFinalWeights_props E hEne hEnn
  have hWne : calculateFinalWeights E ≠ [] := by
    intro h0
    rw [h0] at hWlen
    exact hEne (List.length_eq_zero.mp hWlen.symm)
  rw [if_neg (not_or.mpr ⟨hWne,
    not_not_intro ⟨hWmem, by rw [hWsum]; norm_num⟩⟩)]
  exact ⟨calculateFinalWeights E, rfl, by rw [hWlen, hElen, hlen], hWmem, hWsum⟩

/-- Shared helper: on a single-criterion shape-valid input the whole
pipeline returns exactly the weight vector with the single entry 1. -/
lemma merec_single_ok (M : List (List ℝ)) (t : CriteriaType) (hM : M ≠ [])
    (hrow : ∀ row ∈ M, row.length = 1) :
    calculateMerecWeights M [t] = Except.ok [1] := by
  have hhead : M.headI.length = 1 := hrow M.headI (headI_mem hM)
  have hshape : ShapeValid M [t] :=
    ⟨hM, by simp, by simp [hhead], fun r hr => by rw [hrow r hr, hhead]⟩
  obtain ⟨W, hok, hlen, _, hsum⟩ :=
    merecPipeline_ok M [t] epsilonDefault epsilonDefault_pos hshape
  rcases W with _ | ⟨w, ws⟩
  · simp at hlen
  · rcases ws with _ | ⟨w2, ws2⟩
    · have hw : w = 1 := by simpa using hsum
      subst hw
      rw [calculateMerecWeights]
      exact hok
    · simp at hlen

/-! ### The pipeline fails exactly on shape violations -/

lemma merecPipeline_error_of_not_shape (M : List (List ℝ)) (T : List CriteriaType)
    (ε : ℝ) (h : ¬ ShapeValid M T) (W : List ℝ) :
    merecPipeline M T ε ≠ Except.ok W := by
  intro hok
  by_cases hM : M = []
  · subst hM
    simp [merecPipeline] at hok
  by_cases hT : T = []
  · subst hT
    rw [merecPipeline, if_neg (fun h0 => hM (List.length_eq_zero.mp h0)),
      if_pos List.length_nil] at hok
    cases hok
  by_cases hlen : T.length = M.headI.length
  · have hrows : ¬ ∀ row ∈ M, row.length = M.headI.length :=
      fun hr => h ⟨hM, hT, hlen, hr⟩
    obtain ⟨r, hr, hne⟩ := by
      push_neg at hrows
      exact hrows
    rw [merecPipeline, if_neg (fun h0 => hM (List.length_eq_zero.mp h0)),
      if_neg (fun h0 => hT (List.length_eq_zero.mp h0))] at hok
    simp only at hok
    rw [if_neg (not_not_intro hlen), if_pos ⟨r, hr, hne⟩] at hok
    cases hok
  · rw [merecPipeline, if_neg (fun h0 => hM (List.length_eq_zero.mp h0)),
      if_neg (fun h0 => hT (List.length_eq_zero.mp h0))] at hok
    simp only at hok
    rw [if_pos hlen] at hok
    cases hok

/-! ### Pointwise description of the normalizer -/

lemma columnValues_length (A : List (List ℝ)) (j : ℕ) :
    (columnValues A j).length = A.length := by
  simp [columnValues]

lemma columnValues_getD (A : List (List ℝ)) (j i : ℕ) (h : i < A.length) :
    (columnValues A j).getD i 0 = matrixEntry A i j := by
  unfold columnValues matrixEntry
  exact getD_map_lt _ A h [] 0

lemma scaleColumn_length (M : List (List ℝ)) (c : ℝ) (j : ℕ) :
    (scaleColumn M c j).length = M.length := by
  simp [scaleColumn]

lemma scaleColumn_headI_length (M : List (List ℝ)) (c : ℝ) (j : ℕ) :
    (scaleColumn M c j).headI.length = M.headI.length := by
  cases M <;> simp [scaleColumn]

lemma listMin_pair (a b : ℝ) : listMin [a, b] = min a b := by
  simp [listMin]

lemma normalizedEntry (X : List (List ℝ)) (T : List CriteriaType) (ε : ℝ)
    (i j : ℕ) (hi : i < X.length) (hj : j < X.headI.length) :
    matrixEntry (calculateNormalizedMatrix X T ε) i j =
      if T.getD j CriteriaType.benefit = CriteriaType.benefit then
        if listMin (columnValues X j) ≤ 0 then ε
        else listMin (columnValues X j) / max (matrixEntry X i j) ε
      else
        if listMax (columnValues X j) = 0 then ε
        else max (matrixEntry X i j) ε / listMax (columnValues X j) := by
  unfold matrixEntry
  simp only [calculateNormalizedMatrix]
  rw [getD_map_lt _ X hi [] [], getD_range_map _ hj 0]

lemma normalizedEntry_benefit (X : List (List ℝ)) (T : List CriteriaType) (ε : ℝ)
    (i j : ℕ) (hi : i < X.length) (hj : j < X.headI.length)
    (hb : T.getD j CriteriaType.benefit = CriteriaType.benefit) :
    matrixEntry (calculateNormalizedMatrix X T ε) i j =
      if listMin (columnValues X j) ≤ 0 then ε
      else listMin (columnValues X j) / max (matrixEntry X i j) ε := by
  rw [normalizedEntry X T ε i j hi hj, if_pos hb]

lemma normalizedEntry_cost (X : List (List ℝ)) (T : List CriteriaType) (ε : ℝ)
    (i j : ℕ) (hi : i < X.length) (hj : j < X.headI.length)
    (hb : T.getD j CriteriaType.benefit = CriteriaType.cost) :
    matrixEntry (calculateNormalizedMatrix X T ε) i j =
      if listMax (columnValues X j) = 0 then ε
      else max (matrixEntry X i j) ε / listMax (columnValues X j) := by
  rw [normalizedEntry X T ε i j hi hj,
    if_neg (by rw [hb]; exact fun hcon => CriteriaType.noConfusion hcon)]

/-! ### Scale-invariance of benefit-column normalization above the epsilon floor -/

lemma scaleColumn_columnValues (M : List (List ℝ)) (c : ℝ) (j : ℕ)
    (hrect : ∀ row ∈ M, row.length = M.headI.length)
    (hj : j < M.headI.length) :
    columnValues (scaleColumn M c j) j = (columnValues M j).map (fun x => c * x) := by
  unfold columnValues scaleColumn
  rw [List.map_map, List.map_map]
  refine List.map_congr_left ?_
  intro row hrow
  simp only [Function.comp]
  exact getD_set_self row (by rw [hrect row hrow]; exact hj) _ 0

lemma scaleColumn_matrixEntry (M : List (List ℝ)) (c : ℝ) (j i : ℕ)
    (hi : i < M.length) (hrect : ∀ row ∈ M, row.length = M.headI.length)
    (hj : j < M.headI.length) :
    matrixEntry (scaleColumn M c j) i j = c * matrixEntry M i j := by
  unfold matrixEntry scaleColumn
  rw [getD_map_lt _ M hi [] []]
  exact getD_set_self _ (by rw [hrect _ (getD_mem M [] hi)]; exact hj) _ 0

lemma range_map_getD_of_length {β : Type} (n : ℕ) (l : List ℝ) (h : l.length = n)
    (f : ℝ → β) (d : ℝ) :
    (List.range n).map (fun j => f (l.getD j d)) = l.map f := by
  subst h
  exact range_map_getD l f d

/-! ### Claim theorems -/

/-- C1: for every shape-valid input (nonempty matrix, nonempty criteria
list of length equal to the column count, rectangular rows) the entry
point returns a weight vector whose length equals the criteria count,
whose entries all lie in [0, 1], and whose sum is exactly 1 and hence
within the 1e-10 tolerance. -/
theorem merec_c1_weight_vector_postcondition (M : List (List ℝ))
    (T : List CriteriaType) (h : ShapeValid M T) :
    ∃ W, calculateMerecWeights M T = Except.ok W ∧ W.length = T.length ∧
      (∀ w ∈ W, 0 ≤ w ∧ w ≤ 1) ∧ W.sum = 1 ∧ |W.sum - 1| ≤ 1 / 10 ^ 10 := by
  obtain ⟨W, hok, hlen, hmem, hsum⟩ :=
    merecPipeline_ok M T epsilonDefault epsilonDefault_pos h
  exact ⟨W, by rw [calculateMerecWeights]; exact hok, hlen, hmem, hsum,
    by rw [hsum]; norm_num⟩

theorem merec_c1_witness :
    ShapeValid [[(1 : ℝ), 2], [3, 4]] [CriteriaType.benefit, CriteriaType.cost] ∧
      ∃ W, calculateMerecWeights [[(1 : ℝ), 2], [3, 4]]
            [CriteriaType.benefit, CriteriaType.cost] = Except.ok W ∧
        W.length = [CriteriaType.benefit, CriteriaType.cost].length ∧
        (∀ w ∈ W, 0 ≤ w ∧ w ≤ 1) ∧ W.sum = 1 ∧ |W.sum - 1| ≤ 1 / 10 ^ 10 := by
  have hs : ShapeValid [[(1 : ℝ), 2], [3, 4]]
      [CriteriaType.benefit, CriteriaType.cost] := by
    refine ⟨by simp, by simp, by simp, ?_⟩
    intro row hrow
    rcases List.mem_cons.mp hrow with rfl | hrow2
    · rfl
    · rcases List.mem_cons.mp hrow2 with rfl | hrow3
      · rfl
      · cases hrow3
  exact ⟨hs, merec_c1_weight_vector_postcondition _ _ hs⟩

/-- C2: the normalizer computes, for a benefit column j, the value
columnMin / max(x, epsilon) with epsilon substituted for the whole column
when columnMin is not positive, and for a cost column the value
max(x, epsilon) / columnMax with epsilon substituted for the whole column
when columnMax is zero. -/
theorem merec_c2_normalizer_formula (X : List (List ℝ)) (T : List CriteriaType)
    (ε : ℝ) (i j : ℕ) (_hT : T.length = X.headI.length)
    (hi : i < X.length) (hj : j < X.headI.length) :
    (T.getD j CriteriaType.benefit = CriteriaType.benefit →
      matrixEntry (calculateNormalizedMatrix X T ε) i j =
        if listMin (columnValues X j) ≤ 0 then ε
        else listMin (columnValues X j) / max (matrixEntry X i j) ε) ∧
    (T.getD j CriteriaType.benefit = CriteriaType.cost →
      matrixEntry (calculateNormalizedMatrix X T ε) i j =
        if listMax (columnValues X j) = 0 then ε
        else max (matrixEntry X i j) ε / listMax (columnValues X j)) :=
  ⟨fun hb => normalizedEntry_benefit X T ε i j hi hj hb,
   fun hb => normalizedEntry_cost X T ε i j hi hj hb⟩

theorem merec_c2_witness :
    (([CriteriaType.benefit].length = [[(2 : ℝ)]].headI.length) ∧
      0 < [[(2 : ℝ)]].length ∧ 0 < [[(2 : ℝ)]].headI.length) ∧
    (([CriteriaType.benefit].getD 0 CriteriaType.benefit = CriteriaType.benefit →
      matrixEntry (calculateNormalizedMatrix [[(2 : ℝ)]] [CriteriaType.benefit] 1) 0 0 =
        if listMin (columnValues [[(2 : ℝ)]] 0) ≤ 0 then 1
        else listMin (columnValues [[(2 : ℝ)]] 0) /
          max (matrixEntry [[(2 : ℝ)]] 0 0) 1) ∧
     ([CriteriaType.benefit].getD 0 CriteriaType.benefit = CriteriaType.cost →
      matrixEntry (calculateNormalizedMatrix [[(2 : ℝ)]] [CriteriaType.benefit] 1) 0 0 =
        if listMax (columnValues [[(2 : ℝ)]] 0) = 0 then 1
        else max (matrixEntry [[(2 : ℝ)]] 0 0) 1 /
          listMax (columnValues [[(2 : ℝ)]] 0))) :=
  ⟨⟨by simp, by simp, by simp⟩,
    merec_c2_normalizer_formula _ _ _ _ _ (by simp) (by simp) (by simp)⟩

/-- C3: the performance scorer returns, for alternative i, the value
ln(1 + (1/n) times the sum over the row of |ln(max(N[i][j], epsilon))|),
where the averaging divisor n is the criterion count (the length of row
0), not the alternative count; the non-finite recovery branches of the
source are dead in exact real arithmetic. -/
theorem merec_c3_overall_performance_formula (N : List (List ℝ)) (ε : ℝ)
    (i : ℕ) (hrect : ∀ row ∈ N, row.length = N.headI.length)
    (hi : i < N.length) :
    (calculateOverallPerformance N ε).length = N.length ∧
      (calculateOverallPerformance N ε).getD i 0 =
        Real.log (1 + ((N.getD i []).map
          (fun x => |Real.log (max x ε)|)).sum / (N.headI.length : ℝ)) := by
  refine ⟨calculateOverallPerformance_length N ε, ?_⟩
  simp only [calculateOverallPerformance]
  rw [getD_map_lt _ N hi [] 0,
    range_map_getD_of_length N.headI.length (N.getD i [])
      (hrect _ (getD_mem N [] hi)) (fun x => absLnTerm ε x) 0]
  simp [absLnTerm]

theorem merec_c3_witness :
    ((∀ row ∈ [[(1 : ℝ), 1]], row.length = [[(1 : ℝ), 1]].headI.length) ∧
      0 < [[(1 : ℝ), 1]].length) ∧
    ((calculateOverallPerformance [[(1 : ℝ), 1]] 1).length = [[(1 : ℝ), 1]].length ∧
      (calculateOverallPerformance [[(1 : ℝ), 1]] 1).getD 0 0 =
        Real.log (1 + (([[(1 : ℝ), 1]].getD 0 []).map
          (fun x => |Real.log (max x 1)|)).sum / ([[(1 : ℝ), 1]].headI.length : ℝ))) :=
  ⟨⟨by simp, by simp⟩,
    merec_c3_overall_performance_formula _ _ _ (by simp) (by simp)⟩

/-- C4: on any single-criterion shape-valid input (every row of length 1)
the entry point returns exactly the weight vector [1]. -/
theorem merec_c4_single_criterion (M : List (List ℝ)) (t : CriteriaType)
    (hM : M ≠ []) (hrow : ∀ row ∈ M, row.length = 1) :
    calculateMerecWeights M [t] = Except.ok [1] :=
  merec_single_ok M t hM hrow

theorem merec_c4_witness :
    ([[(5 : ℝ)], [3]] ≠ ([] : List (List ℝ)) ∧
      ∀ row ∈ [[(5 : ℝ)], [3]], row.length = 1) ∧
    calculateMerecWeights [[(5 : ℝ)], [3]] [CriteriaType.benefit] =
      Except.ok [1] :=
  ⟨⟨by simp, by simp⟩,
    merec_c4_single_criterion _ CriteriaType.benefit (by simp) (by simp)⟩

/-- C5: on every shape-valid raw input the matrix builder succeeds,
replaces each non-positive cell v with |v| + 1, leaves positive cells
unchanged, and every cell of the result is strictly positive. -/
theorem merec_c5_matrix_builder_repair (V : List (List ℝ)) (n : ℕ)
    (hne : V ≠ []) (hn : n ≠ 0) (hshape : ∀ row ∈ V, row.length = n) :
    ∃ X, calculateDecisionMatrix V n = Except.ok X ∧
      X.length = V.length ∧
      (∀ i j, i < V.length → j < n →
        matrixEntry X i j =
          if matrixEntry V i j ≤ 0 then |matrixEntry V i j| + 1
          else matrixEntry V i j) ∧
      ∀ row ∈ X, ∀ x ∈ row, 0 < x := by
  refine ⟨repairMatrix V, ?_, repairMatrix_length V, ?_, repairMatrix_pos V⟩
  · rw [calculateDecisionMatrix,
      if_neg (fun h0 => hne (List.length_eq_zero.mp h0)), if_neg hn,
      if_neg (fun hbad => by
        obtain ⟨r, hr, hner⟩ := hbad
        exact hner (hshape r hr))]
  · intro i j hi hj
    unfold matrixEntry repairMatrix
    rw [getD_map_lt _ V hi [] [],
      getD_map_lt _ (V.getD i []) (by rw [hshape _ (getD_mem V [] hi)]; exact hj) 0 0]
    rfl

theorem merec_c5_witness :
    ([[(-2 : ℝ), 3]] ≠ ([] : List (List ℝ)) ∧ (2 : ℕ) ≠ 0 ∧
      ∀ row ∈ [[(-2 : ℝ), 3]], row.length = 2) ∧
    ∃ X, calculateDecisionMatrix [[(-2 : ℝ), 3]] 2 = Except.ok X ∧
      X.length = [[(-2 : ℝ), 3]].length ∧
      (∀ i j, i < [[(-2 : ℝ), 3]].length → j < 2 →
        matrixEntry X i j =
          if matrixEntry [[(-2 : ℝ), 3]] i j ≤ 0 then
            |matrixEntry [[(-2 : ℝ), 3]] i j| + 1
          else matrixEntry [[(-2 : ℝ), 3]] i j) ∧
      ∀ row ∈ X, ∀ x ∈ row, 0 < x :=
  ⟨⟨by simp, by simp, by simp⟩,
    merec_c5_matrix_builder_repair _ _ (by simp) (by simp) (by simp)⟩

/-- C6 (amended): for a nonempty deviation vector the finalizer returns
the uniform vector when the total is 0, and returns |E_j| / total when
additionally every deviation is nonnegative (then the renormalization
check of the source is vacuous); with a negative deviation the source
renormalizes, so the plain |E_j| / total formula does not hold in
general. -/
theorem merec_c6_amended (E : List ℝ) (_hne : E ≠ []) :
    (E.sum = 0 →
      calculateFinalWeights E = List.replicate E.length (1 / (E.length : ℝ))) ∧
    ((∀ e ∈ E, 0 ≤ e) → E.sum ≠ 0 →
      calculateFinalWeights E = E.map (fun e => |e| / E.sum)) :=
  ⟨fun hs => calculateFinalWeights_sum_zero E hs,
   fun h0 hs => calculateFinalWeights_of_nonneg E h0 hs⟩

theorem merec_c6_witness :
    ([(2 : ℝ), 3] ≠ []) ∧
    (([(2 : ℝ), 3].sum = 0 →
      calculateFinalWeights [(2 : ℝ), 3] =
        List.replicate ([(2 : ℝ), 3]).length (1 / (([(2 : ℝ), 3]).length : ℝ))) ∧
     ((∀ e ∈ [(2 : ℝ), 3], 0 ≤ e) → [(2 : ℝ), 3].sum ≠ 0 →
      calculateFinalWeights [(2 : ℝ), 3] =
        [(2 : ℝ), 3].map (fun e => |e| / [(2 : ℝ), 3].sum))) :=
  ⟨by simp, merec_c6_amended _ (by simp)⟩

/-- C7: the entry point returns a weight vector exactly on shape-valid
inputs; on every shape violation (empty matrix, empty criteria list,
column-count mismatch, ragged row) it fails, and on every shape-valid
input every stage validator passes, so no error escapes. -/
theorem merec_c7_error_iff_shape_violation (M : List (List ℝ))
    (T : List CriteriaType) :
    (∃ W, calculateMerecWeights M T = Except.ok W) ↔ ShapeValid M T := by
  constructor
  · rintro ⟨W, hok⟩
    by_contra hshape
    exact merecPipeline_error_of_not_shape M T epsilonDefault hshape W
      (by rw [calculateMerecWeights] at hok; exact hok)
  · intro h
    obtain ⟨W, hok, -, -, -⟩ :=
      merecPipeline_ok M T epsilonDefault epsilonDefault_pos h
    exact ⟨W, by rw [calculateMerecWeights]; exact hok⟩

/-- C9 (amended): the entry point has no epsilon parameter; a third
argument at a call site is dropped by JavaScript argument semantics, no
positivity validation of it exists, and the pipeline stages always run
with the fixed default epsilon 1e-10. -/
theorem merec_c9_amended (M : List (List ℝ)) (T : List CriteriaType) (ε : ℝ) :
    calculateMerecWeightsExtraArg M T ε = merecPipeline M T epsilonDefault :=
  rfl

/-- C9 counterexample: supplying the non-positive epsilon -1 is not
rejected; the call succeeds and returns the weight vector [1]. -/
theorem merec_c9_counterexample :
    ((-1 : ℝ) ≤ 0) ∧
      calculateMerecWeightsExtraArg [[(2 : ℝ)]] [CriteriaType.benefit] (-1) =
        Except.ok [1] := by
  refine ⟨by norm_num, ?_⟩
  rw [calculateMerecWeightsExtraArg]
  exact merec_single_ok [[(2 : ℝ)]] CriteriaType.benefit (by simp) (by simp)

/-- C10: the free function and the static method are verbatim duplicates
in the source and agree on every input, returning and failing under
exactly the same conditions. -/
theorem merec_c10_entry_points_agree (M : List (List ℝ))
    (T : List CriteriaType) :
    Merec.CalculateWeight M T = calculateMerecWeights M T :=
  rfl

/-- C8 (amended): scaling a benefit column by a positive constant leaves
its normalized column unchanged provided every cell of the column and
every scaled cell stays at or above the epsilon floor (the max(x, epsilon)
clamp of the normalizer breaks exact scale-invariance below the floor). -/
theorem merec_c8_amended (M : List (List ℝ)) (T : List CriteriaType)
    (ε c : ℝ) (j : ℕ) (hε : 0 < ε) (hc : 0 < c)
    (hrect : ∀ row ∈ M, row.length = M.headI.length)
    (hj : j < M.headI.length)
    (hb : T.getD j CriteriaType.benefit = CriteriaType.benefit)
    (hx : ∀ row ∈ M, ε ≤ row.getD j 0 ∧ ε ≤ c * row.getD j 0) :
    columnValues (calculateNormalizedMatrix (scaleColumn M c j) T ε) j =
      columnValues (calculateNormalizedMatrix M T ε) j := by
  have hM : M ≠ [] := by
    rintro rfl
    exact Nat.not_lt_zero j hj
  have hLlen : (calculateNormalizedMatrix (scaleColumn M c j) T ε).length
      = M.length := by
    rw [calculateNormalizedMatrix_length, scaleColumn_length]
  have hRlen : (calculateNormalizedMatrix M T ε).length = M.length :=
    calculateNormalizedMatrix_length M T ε
  have hcolS : columnValues (scaleColumn M c j) j =
      (columnValues M j).map (fun x => c * x) :=
    scaleColumn_columnValues M c j hrect hj
  have hminS : listMin (columnValues (scaleColumn M c j) j) =
      c * listMin (columnValues M j) := by
    rw [hcolS, listMin_map_mul c hc.le]
  have hcne : columnValues M j ≠ [] := by
    unfold columnValues
    intro h0
    exact hM (List.map_eq_nil_iff.mp h0)
  have hminge : ε ≤ listMin (columnValues M j) := by
    obtain ⟨r, hr, heq⟩ := List.mem_map.mp
      (show listMin (columnValues M j) ∈ M.map (fun row => row.getD j 0) from
        listMin_mem hcne)
    rw [← heq]
    exact (hx r hr).1
  have hminpos : 0 < listMin (columnValues M j) := lt_of_lt_of_le hε hminge
  apply List.ext_getElem
  · rw [columnValues_length, columnValues_length, hLlen, hRlen]
  intro i h1 h2
  have hiM : i < M.length := by
    rw [columnValues_length, hLlen] at h1
    exact h1
  rw [← getD_eq_getElem _ (0 : ℝ) h1, ← getD_eq_getElem _ (0 : ℝ) h2,
    columnValues_getD _ _ _ (by rw [hLlen]; exact hiM),
    columnValues_getD _ _ _ (by rw [hRlen]; exact hiM),
    normalizedEntry_benefit (scaleColumn M c j) T ε i j
      (by rw [scaleColumn_length]; exact hiM)
      (by rw [scaleColumn_headI_length]; exact hj) hb,
    normalizedEntry_benefit M T ε i j hiM hj hb,
    hminS, if_neg (not_le.mpr (mul_pos hc hminpos)),
    if_neg (not_le.mpr hminpos),
    scaleColumn_matrixEntry M c j i hiM hrect hj]
  have hxr := hx (M.getD i []) (getD_mem M [] hiM)
  rw [show matrixEntry M i j = (M.getD i []).getD j 0 from rfl,
    max_eq_left hxr.2, max_eq_left hxr.1,
    mul_div_mul_left _ _ (ne_of_gt hc)]

theorem merec_c8_amended_witness :
    ((0 : ℝ) < 1 / 2 ∧ (0 : ℝ) < 3 ∧
      (∀ row ∈ [[(1 : ℝ)], [2]], row.length = [[(1 : ℝ)], [2]].headI.length) ∧
      0 < [[(1 : ℝ)], [2]].headI.length ∧
      [CriteriaType.benefit].getD 0 CriteriaType.benefit = CriteriaType.benefit ∧
      (∀ row ∈ [[(1 : ℝ)], [2]],
        (1 : ℝ) / 2 ≤ row.getD 0 0 ∧ (1 : ℝ) / 2 ≤ 3 * row.getD 0 0)) ∧
    columnValues (calculateNormalizedMatrix (scaleColumn [[(1 : ℝ)], [2]] 3 0)
        [CriteriaType.benefit] (1 / 2)) 0 =
      columnValues (calculateNormalizedMatrix [[(1 : ℝ)], [2]]
        [CriteriaType.benefit] (1 / 2)) 0 := by
  have hx : ∀ row ∈ [[(1 : ℝ)], [2]],
      (1 : ℝ) / 2 ≤ row.getD 0 0 ∧ (1 : ℝ) / 2 ≤ 3 * row.getD 0 0 := by
    intro row hrow
    rcases List.mem_cons.mp hrow with rfl | hrow2
    · norm_num
    · rcases List.mem_cons.mp hrow2 with rfl | hrow3
      · norm_num
      · cases hrow3
  have hrect : ∀ row ∈ [[(1 : ℝ)], [2]],
      row.length = [[(1 : ℝ)], [2]].headI.length := by
    intro row hrow
    rcases List.mem_cons.mp hrow with rfl | hrow2
    · rfl
    · rcases List.mem_cons.mp hrow2 with rfl | hrow3
      · rfl
      · cases hrow3
  exact ⟨⟨by norm_num, by norm_num, hrect, by simp, by simp, hx⟩,
    merec_c8_amended _ _ _ _ _ (by norm_num) (by norm_num) hrect (by simp)
      (by simp) hx⟩

/-- C6 counterexample: on the deviation vector [-1, 3] the finalizer does
not return [|E_j| / total] = [1/2, 3/2]; that vector sums to 2, so the
renormalization branch fires and the result is [1/4, 3/4]. -/
theorem merec_c6_counterexample :
    calculateFinalWeights [(-1 : ℝ), 3] = [1 / 4, 3 / 4] ∧
      calculateFinalWeights [(-1 : ℝ), 3] ≠
        [|(-1 : ℝ)| / ((-1) + 3), |(3 : ℝ)| / ((-1) + 3)] := by
  have habs1 : |(-1 : ℝ)| = 1 := by
    rw [abs_of_nonpos (by norm_num)]
    norm_num
  have habs3 : |(3 : ℝ)| = 3 := abs_of_nonneg (by norm_num)
  have hsumE : ([(-1 : ℝ), 3]).sum = 2 := by
    norm_num [List.sum_cons, List.sum_nil]
  have hmap : ([(-1 : ℝ), 3]).map (fun e => |e| / 2) = [1 / 2, 3 / 2] := by
    simp [habs1, habs3]
  have hsumW : ([(1 : ℝ) / 2, 3 / 2]).sum = 2 := by
    norm_num [List.sum_cons, List.sum_nil]
  have h : calculateFinalWeights [(-1 : ℝ), 3] = [1 / 4, 3 / 4] := by
    simp only [calculateFinalWeights]
    rw [hsumE, if_neg (by norm_num : ¬ (2 : ℝ) = 0), hmap, hsumW,
      if_pos (by rw [show (2 : ℝ) - 1 = 1 by norm_num, abs_one]; norm_num),
      if_pos (by norm_num : (0 : ℝ) < 2)]
    norm_num
  refine ⟨h, ?_⟩
  rw [h]
  intro heq
  rw [habs1, habs3] at heq
  simp only [List.cons.injEq] at heq
  obtain ⟨h1, -⟩ := heq
  norm_num at h1

/-- C8 counterexample: with a benefit column [1/10^20, 1] (all cells
positive) and the positive scale factor 10^10, the normalized column of
the scaled matrix differs from the normalized column of the original,
because the epsilon clamp of the normalizer is crossed. -/
theorem merec_c8_counterexample :
    columnValues (calculateNormalizedMatrix
        (scaleColumn [[1 / 10 ^ 20], [(1 : ℝ)]] (10 ^ 10) 0)
        [CriteriaType.benefit] epsilonDefault) 0 ≠
      columnValues (calculateNormalizedMatrix [[1 / 10 ^ 20], [(1 : ℝ)]]
        [CriteriaType.benefit] epsilonDefault) 0 := by
  intro heq
  have h0 := congrArg (fun l : List ℝ => l.getD 0 0) heq
  simp only at h0
  rw [columnValues_getD _ _ _
      (by rw [calculateNormalizedMatrix_length, scaleColumn_length]; norm_num),
    columnValues_getD _ _ _
      (by rw [calculateNormalizedMatrix_length]; norm_num),
    normalizedEntry_benefit _ _ _ 0 0
      (by rw [scaleColumn_length]; norm_num)
      (by rw [scaleColumn_headI_length]; simp) (by simp),
    normalizedEntry_benefit _ _ _ 0 0 (by norm_num) (by simp) (by simp)] at h0
  have hcolM : columnValues [[1 / 10 ^ 20], [(1 : ℝ)]] 0 = [1 / 10 ^ 20, 1] := by
    simp [columnValues]
  have hcolS : columnValues
      (scaleColumn [[1 / 10 ^ 20], [(1 : ℝ)]] ((10 : ℝ) ^ 10) 0) 0 =
      [(10 : ℝ) ^ 10 * (1 / 10 ^ 20), (10 : ℝ) ^ 10 * 1] := by
    simp [columnValues, scaleColumn]
  have hentM : matrixEntry [[1 / 10 ^ 20], [(1 : ℝ)]] 0 0 = 1 / 10 ^ 20 := by
    simp [matrixEntry]
  have hentS : matrixEntry
      (scaleColumn [[1 / 10 ^ 20], [(1 : ℝ)]] ((10 : ℝ) ^ 10) 0) 0 0 =
      (10 : ℝ) ^ 10 * (1 / 10 ^ 20) := by
    simp [matrixEntry, scaleColumn]
  have hminM : listMin [1 / 10 ^ 20, (1 : ℝ)] = 1 / 10 ^ 20 := by
    rw [listMin_pair, min_eq_left (by norm_num)]
  have hminS : listMin [(10 : ℝ) ^ 10 * (1 / 10 ^ 20), (10 : ℝ) ^ 10 * 1] =
      (10 : ℝ) ^ 10 * (1 / 10 ^ 20) := by
    rw [listMin_pair, min_eq_left (by norm_num)]
  rw [hcolM, hcolS, hminM, hminS, hentM, hentS,
    if_neg (by norm_num), if_neg (by norm_num)] at h0
  have hmaxS : max ((10 : ℝ) ^ 10 * (1 / 10 ^ 20)) epsilonDefault =
      epsilonDefault := by
    rw [max_eq_right]
    norm_num [epsilonDefault]
  have hmaxM : max ((1 : ℝ) / 10 ^ 20) epsilonDefault = epsilonDefault := by
    rw [max_eq_right]
    norm_num [epsilonDefault]
  rw [hmaxS, hmaxM] at h0
  simp only [epsilonDefault] at h0
  norm_num at h0
